import Mathlib

/-!
# Verification of the routefinder path-pattern matching engine

This file gives a shallow embedding of the routefinder router: pattern
parsing into segment sequences, the precedence comparison between patterns,
the matching algorithm producing captures, and the router's query
operations (`add`, `matches`, `best_match`).

The embedding follows `src/router.rs` and `src/matches.rs` directly.  The
repository's remaining modules (the `Segment` type, the `RouteSpec` parser,
`Route::is_match`, and the `Captures` type) are not part of the two source
files; those definitions are modelled from the specification document, and
each such definition is marked `Modelled from the spec:` in its doc comment.
-/

/-! ## Comparison primitives

Rust's derived `Ord` instances bottom out in comparisons of machine
integers (for `char`) and lexicographic comparison of sequences.  We model
them with explicit `Ordering`-valued comparison functions.
-/

/-- Three-way comparison on `Nat`, modelling Rust's integer `Ord`. -/
def natCmp (a b : Nat) : Ordering :=
  if a < b then .lt else if b < a then .gt else .eq

theorem natCmp_swap (a b : Nat) : natCmp b a = (natCmp a b).swap := by
  unfold natCmp
  split_ifs <;> first | rfl | omega

theorem natCmp_eq_iff (a b : Nat) : natCmp a b = .eq ↔ a = b := by
  unfold natCmp
  split_ifs <;> simp <;> omega

theorem natCmp_lt_iff (a b : Nat) : natCmp a b = .lt ↔ a < b := by
  unfold natCmp
  split_ifs <;> simp <;> omega

theorem natCmp_lt_trans {a b c : Nat} (h₁ : natCmp a b = .lt) (h₂ : natCmp b c = .lt) :
    natCmp a c = .lt := by
  rw [natCmp_lt_iff] at *
  exact Nat.lt_trans h₁ h₂

/-- Three-way comparison on `Char`, via the order on code points. -/
def charCmp (a b : Char) : Ordering :=
  if a < b then .lt else if b < a then .gt else .eq

theorem charCmp_swap (a b : Char) : charCmp b a = (charCmp a b).swap := by
  unfold charCmp
  rcases lt_trichotomy a b with h | h | h
  · simp [h, asymm h, Ordering.swap]
  · subst h
    simp [lt_irrefl, Ordering.swap]
  · simp [h, asymm h, Ordering.swap]

theorem charCmp_eq_iff (a b : Char) : charCmp a b = .eq ↔ a = b := by
  unfold charCmp
  rcases lt_trichotomy a b with h | h | h
  · simp [h, asymm h, ne_of_lt h]
  · subst h
    simp [lt_irrefl]
  · simp [h, asymm h, (ne_of_lt h).symm]

theorem charCmp_lt_iff (a b : Char) : charCmp a b = .lt ↔ a < b := by
  unfold charCmp
  rcases lt_trichotomy a b with h | h | h
  · simp [h]
  · subst h
    simp [lt_irrefl]
  · simp [h, asymm h]

theorem charCmp_lt_trans {a b c : Char} (h₁ : charCmp a b = .lt) (h₂ : charCmp b c = .lt) :
    charCmp a c = .lt := by
  rw [charCmp_lt_iff] at *
  exact lt_trans h₁ h₂

/-- Lexicographic three-way comparison of lists given an element comparison,
modelling Rust's derived `Ord` on `Vec`: the first unequal position decides,
and a strict prefix compares less than its extension. -/
def listCmp (cmp : α → α → Ordering) : List α → List α → Ordering
  | [], [] => .eq
  | [], _ :: _ => .lt
  | _ :: _, [] => .gt
  | a :: as, b :: bs =>
    match cmp a b with
    | .eq => listCmp cmp as bs
    | o => o

/-- Zipping three-way comparison of lists: compare positionally and return
the first unequal result, returning `eq` when the common prefix is equal —
this is exactly the comparison performed by `Match::cmp` in
`src/matches.rs`, which zips the two segment sequences. -/
def zipCmp (cmp : α → α → Ordering) : List α → List α → Ordering
  | [], _ => .eq
  | _ :: _, [] => .eq
  | a :: as, b :: bs =>
    match cmp a b with
    | .eq => zipCmp cmp as bs
    | o => o

section CmpLemmas

variable {α : Type} (cmp : α → α → Ordering)

theorem listCmp_swap (hsw : ∀ a b, cmp b a = (cmp a b).swap) :
    ∀ l₁ l₂, listCmp cmp l₂ l₁ = (listCmp cmp l₁ l₂).swap
  | [], [] => rfl
  | [], _ :: _ => rfl
  | _ :: _, [] => rfl
  | a :: as, b :: bs => by
    have ih := listCmp_swap hsw as bs
    simp only [listCmp, hsw a b]
    cases cmp a b <;> simp [Ordering.swap, ih]

theorem listCmp_eq_iff (heq : ∀ a b, cmp a b = .eq ↔ a = b) :
    ∀ l₁ l₂, listCmp cmp l₁ l₂ = .eq ↔ l₁ = l₂
  | [], [] => by simp [listCmp]
  | [], _ :: _ => by simp [listCmp]
  | _ :: _, [] => by simp [listCmp]
  | a :: as, b :: bs => by
    simp only [listCmp]
    cases h : cmp a b with
    | eq =>
      rw [(heq a b).mp h]
      simp [listCmp_eq_iff heq as bs]
    | lt =>
      have : a ≠ b := fun hab => by rw [hab] at h; simp [(heq b b).mpr rfl] at h
      simp [this]
    | gt =>
      have : a ≠ b := fun hab => by rw [hab] at h; simp [(heq b b).mpr rfl] at h
      simp [this]

theorem listCmp_refl (heq : ∀ a b, cmp a b = .eq ↔ a = b) (l : List α) :
    listCmp cmp l l = .eq :=
  (listCmp_eq_iff cmp heq l l).mpr rfl

theorem listCmp_lt_trans (heq : ∀ a b, cmp a b = .eq ↔ a = b)
    (htr : ∀ a b c, cmp a b = .lt → cmp b c = .lt → cmp a c = .lt) :
    ∀ l₁ l₂ l₃, listCmp cmp l₁ l₂ = .lt → listCmp cmp l₂ l₃ = .lt → listCmp cmp l₁ l₃ = .lt
  | [], [], _ => by simp [listCmp]
  | [], _ :: _, [] => by simp [listCmp]
  | [], _ :: _, _ :: _ => by simp [listCmp]
  | _ :: _, [], _ => by simp [listCmp]
  | _ :: _, _ :: _, [] => by simp [listCmp]
  | a :: as, b :: bs, c :: cs => by
    have ih := listCmp_lt_trans heq htr as bs cs
    intro h₁ h₂
    simp only [listCmp] at h₁ h₂ ⊢
    cases hab : cmp a b <;> rw [hab] at h₁ <;> cases hbc : cmp b c <;> rw [hbc] at h₂
    case lt.lt => rw [htr a b c hab hbc]
    case lt.eq =>
      have hb := (heq b c).mp hbc
      subst hb
      rw [hab]
    case lt.gt => simp at h₂
    case eq.lt =>
      have hb := (heq a b).mp hab
      subst hb
      rw [hbc]
    case eq.eq =>
      have hb := (heq a b).mp hab
      subst hb
      have hc := (heq a c).mp hbc
      subst hc
      rw [(heq a a).mpr rfl]
      simp only [] at h₁ h₂
      exact ih h₁ h₂
    case eq.gt => simp at h₂
    case gt.lt => simp at h₁
    case gt.eq => simp at h₁
    case gt.gt => simp at h₁

theorem zipCmp_swap (hsw : ∀ a b, cmp b a = (cmp a b).swap) :
    ∀ l₁ l₂, zipCmp cmp l₂ l₁ = (zipCmp cmp l₁ l₂).swap
  | [], [] => rfl
  | [], _ :: _ => rfl
  | _ :: _, [] => rfl
  | a :: as, b :: bs => by
    have ih := zipCmp_swap hsw as bs
    simp only [zipCmp, hsw a b]
    cases cmp a b <;> simp [Ordering.swap, ih]

theorem zipCmp_lt_trans (heq : ∀ a b, cmp a b = .eq ↔ a = b)
    (htr : ∀ a b c, cmp a b = .lt → cmp b c = .lt → cmp a c = .lt) :
    ∀ l₁ l₂ l₃, zipCmp cmp l₁ l₂ = .lt → zipCmp cmp l₂ l₃ = .lt → zipCmp cmp l₁ l₃ = .lt
  | [], _, _ => by simp [zipCmp]
  | _ :: _, [], _ => by simp [zipCmp]
  | a :: as, b :: bs, [] => by
    intro _ h
    simp [zipCmp] at h
  | a :: as, b :: bs, c :: cs => by
    have ih := zipCmp_lt_trans heq htr as bs cs
    intro h₁ h₂
    simp only [zipCmp] at h₁ h₂ ⊢
    cases hab : cmp a b <;> rw [hab] at h₁ <;> cases hbc : cmp b c <;> rw [hbc] at h₂
    case lt.lt => rw [htr a b c hab hbc]
    case lt.eq =>
      have hb := (heq b c).mp hbc
      subst hb
      rw [hab]
    case lt.gt => simp at h₂
    case eq.lt =>
      have hb := (heq a b).mp hab
      subst hb
      rw [hbc]
    case eq.eq =>
      have hb := (heq a b).mp hab
      subst hb
      have hc := (heq a c).mp hbc
      subst hc
      rw [(heq a a).mpr rfl]
      simp only [] at h₁ h₂
      exact ih h₁ h₂
    case eq.gt => simp at h₂
    case gt.lt => simp at h₁
    case gt.eq => simp at h₁
    case gt.gt => simp at h₁

/-- The zipping comparison returns `eq` exactly when one list is a prefix
of the other (`List.isPrefixOf`). -/
theorem zipCmp_eq_iff (heq : ∀ a b, cmp a b = .eq ↔ a = b) [DecidableEq α] :
    ∀ l₁ l₂, zipCmp cmp l₁ l₂ = .eq ↔ (l₁.isPrefixOf l₂ ∨ l₂.isPrefixOf l₁)
  | [], l₂ => by simp [zipCmp, List.isPrefixOf]
  | a :: as, [] => by simp [zipCmp, List.isPrefixOf]
  | a :: as, b :: bs => by
    simp only [zipCmp, List.isPrefixOf]
    cases hab : cmp a b with
    | eq =>
      rw [(heq a b).mp hab]
      simp [zipCmp_eq_iff heq as bs]
    | lt =>
      have : a ≠ b := fun h => by rw [h] at hab; simp [(heq b b).mpr rfl] at hab
      simp [this, Ne.symm this, beq_iff_eq]
    | gt =>
      have : a ≠ b := fun h => by rw [h] at hab; simp [(heq b b).mpr rfl] at hab
      simp [this, Ne.symm this, beq_iff_eq]

/-- A lexicographically smaller list is, under the zipping comparison,
either smaller or prefix-equivalent. -/
theorem zipCmp_of_listCmp_lt :
    ∀ l₁ l₂, listCmp cmp l₁ l₂ = .lt → zipCmp cmp l₁ l₂ = .lt ∨ zipCmp cmp l₁ l₂ = .eq
  | [], _, _ => by right; simp [zipCmp]
  | _ :: _, [], h => by simp [listCmp] at h
  | a :: as, b :: bs, h => by
    simp only [listCmp] at h
    simp only [zipCmp]
    cases hab : cmp a b with
    | eq => rw [hab] at h; exact zipCmp_of_listCmp_lt as bs h
    | lt => left; rfl
    | gt => rw [hab] at h; exact absurd h (by simp)

end CmpLemmas

/-! ## Segments

`Segment` is the atomic unit of a parsed pattern.  The variants and their
relative ranking are stated in `src/router.rs` (`best_match` doc comment):
`Exact > Param > Wildcard > (dots and slashes)`.
-/

/-- Modelled from the spec: the atomic unit of a parsed pattern — a literal
(`Exact`), a named parameter (`Param`), an unnamed wildcard (`Wildcard`),
or one of the structural separators implicitly encoded between components
(`Slash` between path components, `Dot` between sub-components of a
literal).  The `Segment` type itself lives in a module that is not among
the two source files. -/
inductive Segment where
  | Slash : Segment
  | Dot : Segment
  | Wildcard : Segment
  | Param : String → Segment
  | Exact : String → Segment
deriving DecidableEq, Repr

/-- The precedence rank of a segment kind, per the `src/router.rs` doc
comment: `Exact > Param > Wildcard > (dots and slashes)`. -/
def segRank : Segment → Nat
  | .Slash => 0
  | .Dot => 1
  | .Wildcard => 2
  | .Param _ => 3
  | .Exact _ => 4

/-- Lexicographic comparison of the text of two `Param`/`Exact` payloads. -/
def strCmp (s t : String) : Ordering :=
  listCmp charCmp s.data t.data

/-- Modelled from the spec: the total comparison on segments — ranked by
kind (`Exact > Param > Wildcard > Dot > Slash`), with equal-kind `Exact`
(and `Param`) segments compared by their literal text so the order is total
and usable as a sorted-set key. -/
def segCmp (a b : Segment) : Ordering :=
  match a, b with
  | .Param m, .Param n => strCmp m n
  | .Exact s, .Exact t => strCmp s t
  | _, _ => natCmp (segRank a) (segRank b)

theorem strCmp_swap (s t : String) : strCmp t s = (strCmp s t).swap :=
  listCmp_swap charCmp charCmp_swap _ _

theorem strCmp_eq_iff (s t : String) : strCmp s t = .eq ↔ s = t := by
  unfold strCmp
  rw [listCmp_eq_iff charCmp charCmp_eq_iff]
  constructor
  · intro h
    cases s; cases t
    exact congrArg String.mk h
  · intro h; rw [h]

theorem strCmp_lt_trans {s t u : String} (h₁ : strCmp s t = .lt) (h₂ : strCmp t u = .lt) :
    strCmp s u = .lt :=
  listCmp_lt_trans charCmp charCmp_eq_iff (fun _ _ _ => charCmp_lt_trans) _ _ _ h₁ h₂

theorem segCmp_swap (a b : Segment) : segCmp b a = (segCmp a b).swap := by
  cases a <;> cases b <;> first | rfl | exact strCmp_swap _ _

theorem segCmp_eq_iff (a b : Segment) : segCmp a b = .eq ↔ a = b := by
  cases a <;> cases b <;>
    simp [segCmp, natCmp, segRank, strCmp_eq_iff]

theorem segCmp_lt_trans {a b c : Segment} (h₁ : segCmp a b = .lt) (h₂ : segCmp b c = .lt) :
    segCmp a c = .lt := by
  cases a <;> cases b <;> cases c <;>
    first
      | rfl
      | exact strCmp_lt_trans h₁ h₂
      | exact Ordering.noConfusion (show Ordering.gt = Ordering.lt from h₁)
      | exact Ordering.noConfusion (show Ordering.gt = Ordering.lt from h₂)
      | exact Ordering.noConfusion (show Ordering.eq = Ordering.lt from h₁)

theorem segCmp_refl (a : Segment) : segCmp a a = .eq :=
  (segCmp_eq_iff a a).mpr rfl

/-! ## Route specifications and the pattern parser -/

/-- Modelled from the spec: a validated, ordered sequence of segments
produced by parsing a raw pattern string. -/
structure RouteSpec where
  segments : List Segment
deriving DecidableEq, Repr

/-- Modelled from the spec: the typed parse failures of §7 — a named
wildcard (`*` followed by text) or an empty parameter name. -/
inductive RouteParseError where
  | namedWildcard : RouteParseError
  | emptyParamName : RouteParseError
deriving DecidableEq, Repr

/-- Split a character list at `/` separators (the component split of the
pattern grammar in §6). -/
def splitSlash : List Char → List (List Char)
  | [] => [[]]
  | c :: rest =>
    if c = '/' then [] :: splitSlash rest
    else
      match splitSlash rest with
      | [] => [[c]]
      | comp :: comps => (c :: comp) :: comps

/-- Split a character list at `.` separators (the sub-component split used
inside a literal component). -/
def splitDot : List Char → List (List Char)
  | [] => [[]]
  | c :: rest =>
    if c = '.' then [] :: splitDot rest
    else
      match splitDot rest with
      | [] => [[c]]
      | comp :: comps => (c :: comp) :: comps

/-- Turn the dot-separated pieces of a literal component into `Exact`
segments with `Dot` separators between them. -/
def exactSegs : List (List Char) → List Segment
  | [] => []
  | [c] => [.Exact (String.mk c)]
  | c :: cs => .Exact (String.mk c) :: .Dot :: exactSegs cs

/-- Modelled from the spec (§4.1, §6): parse one non-empty component.  A
component starting with `:` is a named parameter (name must be non-empty);
a component that is exactly `*` is the wildcard; `*` followed by more text
is the named-wildcard parse error; anything else is a literal, decomposed
at dots. -/
def parseComponent (c : List Char) : Except RouteParseError (List Segment) :=
  match c with
  | [] => .ok []
  | ch :: rest =>
    if ch = ':' then
      if rest = [] then .error .emptyParamName else .ok [.Param (String.mk rest)]
    else if ch = '*' then
      if rest = [] then .ok [.Wildcard] else .error .namedWildcard
    else .ok (exactSegs (splitDot c))

/-- Parse every component, stopping at the first failure. -/
def parseComponents : List (List Char) → Except RouteParseError (List (List Segment))
  | [] => .ok []
  | c :: cs =>
    match parseComponent c with
    | .error e => .error e
    | .ok segs =>
      match parseComponents cs with
      | .error e => .error e
      | .ok rest => .ok (segs :: rest)

/-- Interleave a `Slash` separator between the segment lists of successive
components. -/
def joinSlash : List (List Segment) → List Segment
  | [] => []
  | [l] => l
  | l :: ls => l ++ .Slash :: joinSlash ls

/-- Modelled from the spec (§4.1): parse a raw pattern string into a
`RouteSpec` — split on `/`, drop empty components, parse each component
into segments, and implicitly encode the structural separators between
components. -/
def RouteSpec.parse (pattern : String) : Except RouteParseError RouteSpec :=
  match parseComponents ((splitSlash pattern.data).filter (fun c => !c.isEmpty)) with
  | .error e => .error e
  | .ok ls => .ok ⟨joinSlash ls⟩

/-! ## Routes and the router -/

/-- A `RouteSpec` paired with an opaque handler payload (`Route<T>`).
Equality and ordering are defined only over the spec; the handler is never
compared (spec §3). -/
structure Route (T : Type) where
  spec : RouteSpec
  handler : T
deriving DecidableEq, Repr

/-- Modelled from the spec (§4.2): the precedence comparison between two
routes — segment-by-segment, first unequal position decides, and a strict
prefix sorts below its extension.  This is the `Ord` used as the
`BTreeSet<Route<T>>` key in `src/router.rs`. -/
def routeCmp {T : Type} (a b : Route T) : Ordering :=
  listCmp segCmp a.spec.segments b.spec.segments

/-- Insertion into the sorted list modelling `BTreeSet::insert`: walk the
ascending list to the insertion point; if an element comparing `eq` is
already present the set is left unmodified (Rust's `BTreeSet::insert`
keeps the existing element). -/
def btreeInsert (cmp : α → α → Ordering) (x : α) : List α → List α
  | [] => [x]
  | y :: ys =>
    match cmp x y with
    | .lt => x :: y :: ys
    | .eq => y :: ys
    | .gt => y :: btreeInsert cmp x ys

/-- `Router<T>`: owns the ordered set of routes, modelled as the ascending
list of the `BTreeSet<Route<T>>` in `src/router.rs`. -/
structure Router (T : Type) where
  routes : List (Route T)
deriving DecidableEq, Repr

/-- `Router::new` / `Router::default`: the empty router. -/
def Router.empty {T : Type} : Router T := ⟨[]⟩

/-- `Router::add` from `src/router.rs`: parse the pattern; on failure
return the parse error with the router untouched (the `?` operator returns
before the insertion); on success insert the new route into the sorted
set.  The returned pair models (`Result` value, router state after the
call). -/
def Router.add {T : Type} (r : Router T) (pattern : String) (handler : T) :
    Except RouteParseError Unit × Router T :=
  match RouteSpec.parse pattern with
  | .error e => (.error e, r)
  | .ok spec => (.ok (), ⟨btreeInsert routeCmp ⟨spec, handler⟩ r.routes⟩)

/-! ## Matching a route against a path -/

/-- Modelled from the spec (§4.3): walk the route's segments consuming the
(leading-slash-trimmed) path.  `Exact` consumes its literal text, `Slash`
and `Dot` consume their separator characters, `Param` consumes exactly one
non-empty path component (captured), and `Wildcard` consumes all remaining
path content unconditionally and terminates the walk (captured as one
string).  Returns the positional capture list on success. -/
def matchSegments : List Segment → List Char → Option (List String)
  | [], cs => if cs.isEmpty then some [] else none
  | .Wildcard :: _, cs => some [String.mk cs]
  | .Slash :: segs, cs =>
    match cs with
    | '/' :: cs' => matchSegments segs cs'
    | _ => none
  | .Dot :: segs, cs =>
    match cs with
    | '.' :: cs' => matchSegments segs cs'
    | _ => none
  | .Exact t :: segs, cs =>
    if t.data.isPrefixOf cs then matchSegments segs (cs.drop t.data.length) else none
  | .Param _ :: segs, cs =>
    if (cs.takeWhile (fun c => c ≠ '/')).isEmpty then none
    else (matchSegments segs (cs.drop (cs.takeWhile (fun c => c ≠ '/')).length)).map
      (String.mk (cs.takeWhile (fun c => c ≠ '/')) :: ·)

/-- Modelled from the spec (§4.3): `Route::is_match` — trim the leading
path separators and walk the route's segments down the path; on success
produce a `Match` binding the route, the queried path, and the positional
captures. -/
def Route.is_match' {T : Type} (route : Route T) (path : String) : Option (List String) :=
  matchSegments route.spec.segments (path.data.dropWhile (fun c => c = '/'))

/-! ## Match, Matches and capture extraction (src/matches.rs) -/

/-- `Match` from `src/matches.rs`: a matched route together with the
queried path and the raw positional captures (field `captures` of the Rust
struct is named `rawCaptures` here because the capture-extraction method
keeps the source name `captures`). -/
structure Match (T : Type) where
  path : String
  route : Route T
  rawCaptures : List String
deriving DecidableEq, Repr

/-- `Route::is_match` returning the `Match` value (the form used by the
router queries). -/
def Route.is_match {T : Type} (route : Route T) (path : String) : Option (Match T) :=
  (route.is_match' path).map (fun caps => ⟨path, route, caps⟩)

/-- `Match::cmp` from `src/matches.rs`: zip the two routes' segment
sequences, compare pairwise, and return the first non-equal comparison,
defaulting to `Equal` when the zipped prefix agrees.  The path and the
captures are not consulted. -/
def matchCmp {T : Type} (m₁ m₂ : Match T) : Ordering :=
  zipCmp segCmp m₁.route.spec.segments m₂.route.spec.segments

/-- `Match::eq` from `src/matches.rs`: two matches are equal exactly when
their routes are equal; `Route`'s equality is defined only over the
`RouteSpec` (spec §3), so this is equality of the parsed specs.  The path
and the captures are not consulted. -/
def matchEq {T : Type} (m₁ m₂ : Match T) : Prop :=
  m₂.route.spec = m₁.route.spec

instance {T : Type} (m₁ m₂ : Match T) : Decidable (matchEq m₁ m₂) := by
  unfold matchEq; infer_instance

/-- `Captures` (struct with a list of named pairs and an optional wildcard
value).  The struct itself lives outside the two source files; its shape
is fixed by `Match::captures` in `src/matches.rs`, which pushes `(name,
value)` pairs into field `.0` and sets the optional wildcard `.1`. -/
structure Captures where
  params : List (String × String)
  wildcard : Option String
deriving DecidableEq, Repr

instance : Inhabited Captures := ⟨⟨[], none⟩⟩

/-- Whether a segment records a positional capture when matched. -/
def isParamOrWildcard : Segment → Bool
  | .Param _ => true
  | .Wildcard => true
  | _ => false

/-- One step of the fold inside `Match::captures`: a `Param` pushes a
`(name, value)` pair, the `Wildcard` sets the single optional wildcard
value, anything else contributes nothing. -/
def captureStep (c : Captures) (sc : Segment × String) : Captures :=
  match sc.1 with
  | .Param name => { c with params := c.params ++ [(name, sc.2)] }
  | .Wildcard => { c with wildcard := some sc.2 }
  | _ => c

/-- `Match::captures` from `src/matches.rs`: filter the route's segments
to the `Param`/`Wildcard` ones, zip them against the positional captures,
and fold with `captureStep`. -/
def Match.captures {T : Type} (m : Match T) : Captures :=
  ((m.route.spec.segments.filter isParamOrWildcard).zip m.rawCaptures).foldl
    captureStep default

/-- Modelled from the spec (§3): looking up a repeated parameter name in a
`Captures` value is "last write visible" — the value of the rightmost
pair with that name.  The lookup accessor lives outside the two source
files. -/
def Captures.get (c : Captures) (name : String) : Option String :=
  ((c.params.filter (fun p => p.1 = name)).getLast?).map (fun p => p.2)

/-- `Matches` from `src/matches.rs`: the `BTreeSet<Match>` of all matching
routes for one query, modelled as its ascending list (ordered by
`Match::cmp`).  The single field models the Rust struct field named
`matches` (that word is reserved in Lean). -/
structure Matches (T : Type) where
  toList : List (Match T)
deriving DecidableEq, Repr

/-- `Matches::len`. -/
def Matches.len {T : Type} (ms : Matches T) : Nat :=
  ms.toList.length

/-- `Matches::best` from `src/matches.rs`: the last element of the
ascending set iteration, i.e. the maximum under `Match::cmp`. -/
def Matches.best {T : Type} (ms : Matches T) : Option (Match T) :=
  ms.toList.getLast?

/-- `Matches::for_routes_and_path` from `src/matches.rs`: test every
route, keep the successes, and collect them into the `BTreeSet` — which
inserts in iteration order and keeps the already-present element when a
new one compares `Equal`. -/
def Matches.for_routes_and_path {T : Type} (routes : List (Route T)) (path : String) :
    Matches T :=
  ⟨(routes.filterMap (fun r => r.is_match path)).foldl
    (fun acc m => btreeInsert matchCmp m acc) []⟩

/-- `Router::matches` from `src/router.rs`. -/
def Router.matches {T : Type} (r : Router T) (path : String) : Matches T :=
  Matches.for_routes_and_path r.routes path

/-- `Router::best_match` from `src/router.rs`: scan the sorted routes from
highest to lowest and return the first match. -/
def Router.best_match {T : Type} (r : Router T) (path : String) : Option (Match T) :=
  r.routes.reverse.findSome? (fun route => route.is_match path)

/-- The router invariant: the route list is the strictly ascending
iteration order of the `BTreeSet` — every earlier route compares `lt` to
every later one.  `Router::new` establishes it and `Router::add` preserves
it. -/
def Router.WF {T : Type} (r : Router T) : Prop :=
  r.routes.Pairwise (fun a b => routeCmp a b = .lt)

/-! ## Properties of the comparisons used by the router -/

theorem routeCmp_swap {T : Type} (a b : Route T) : routeCmp b a = (routeCmp a b).swap :=
  listCmp_swap segCmp segCmp_swap _ _

theorem routeCmp_lt_trans {T : Type} {a b c : Route T} (h₁ : routeCmp a b = .lt)
    (h₂ : routeCmp b c = .lt) : routeCmp a c = .lt :=
  listCmp_lt_trans segCmp segCmp_eq_iff (fun _ _ _ => segCmp_lt_trans) _ _ _ h₁ h₂

theorem routeCmp_eq_iff {T : Type} (a b : Route T) : routeCmp a b = .eq ↔ a.spec = b.spec := by
  unfold routeCmp
  rw [listCmp_eq_iff segCmp segCmp_eq_iff]
  constructor
  · intro h
    cases ha : a.spec; cases hb : b.spec
    rw [ha, hb] at h
    simpa using h
  · intro h; rw [h]

theorem routeCmp_congr_left {T : Type} {a b : Route T} (h : routeCmp a b = .eq)
    (c : Route T) : routeCmp a c = routeCmp b c := by
  unfold routeCmp
  rw [(routeCmp_eq_iff a b).mp h]

theorem matchCmp_swap {T : Type} (m₁ m₂ : Match T) : matchCmp m₂ m₁ = (matchCmp m₁ m₂).swap :=
  zipCmp_swap segCmp segCmp_swap _ _

theorem matchCmp_lt_trans {T : Type} {m₁ m₂ m₃ : Match T} (h₁ : matchCmp m₁ m₂ = .lt)
    (h₂ : matchCmp m₂ m₃ = .lt) : matchCmp m₁ m₃ = .lt :=
  zipCmp_lt_trans segCmp segCmp_eq_iff (fun _ _ _ => segCmp_lt_trans) _ _ _ h₁ h₂

theorem matchCmp_eq_iff {T : Type} (m₁ m₂ : Match T) :
    matchCmp m₁ m₂ = .eq ↔
      (m₁.route.spec.segments.isPrefixOf m₂.route.spec.segments ∨
       m₂.route.spec.segments.isPrefixOf m₁.route.spec.segments) :=
  zipCmp_eq_iff segCmp segCmp_eq_iff _ _

/-- A lexicographically smaller route is, under the zipping `Match::cmp`
comparison, either smaller or prefix-equivalent. -/
theorem matchCmp_of_routeCmp_lt {T : Type} {m₁ m₂ : Match T}
    (h : routeCmp m₁.route m₂.route = .lt) :
    matchCmp m₁ m₂ = .lt ∨ matchCmp m₁ m₂ = .eq :=
  zipCmp_of_listCmp_lt segCmp _ _ h

/-! ## Properties of the sorted-set insertion -/

section BTreeLemmas

variable {α : Type} (cmp : α → α → Ordering)

theorem btreeInsert_ne_nil (x : α) (l : List α) : btreeInsert cmp x l ≠ [] := by
  cases l with
  | nil => simp [btreeInsert]
  | cons y ys =>
    unfold btreeInsert
    cases cmp x y <;> simp

theorem mem_btreeInsert {x z : α} : ∀ {l : List α}, z ∈ btreeInsert cmp x l → z = x ∨ z ∈ l
  | [], h => by simpa [btreeInsert] using h
  | y :: ys, h => by
    unfold btreeInsert at h
    cases hc : cmp x y <;> rw [hc] at h <;> simp at h
    case lt =>
      rcases h with h | h | h
      · left; exact h
      · right; simp [h]
      · right; simp [h]
    case eq =>
      rcases h with h | h
      · right; simp [h]
      · right; simp [h]
    case gt =>
      rcases h with h | h
      · right; simp [h]
      · rcases mem_btreeInsert h with h | h
        · left; exact h
        · right; simp [h]

theorem btreeInsert_pairwise (hsw : ∀ a b, cmp b a = (cmp a b).swap)
    (htr : ∀ a b c, cmp a b = .lt → cmp b c = .lt → cmp a c = .lt) (x : α) :
    ∀ {l : List α}, l.Pairwise (fun a b => cmp a b = .lt) →
      (btreeInsert cmp x l).Pairwise (fun a b => cmp a b = .lt)
  | [], _ => by simp [btreeInsert]
  | y :: ys, hp => by
    rcases List.pairwise_cons.mp hp with ⟨hy, hys⟩
    unfold btreeInsert
    cases hc : cmp x y
    case lt =>
      refine List.pairwise_cons.mpr ⟨?_, hp⟩
      intro z hz
      rcases List.mem_cons.mp hz with h | h
      · subst h; exact hc
      · exact htr x y z hc (hy z h)
    case eq => exact hp
    case gt =>
      refine List.pairwise_cons.mpr ⟨?_, btreeInsert_pairwise hsw htr x hys⟩
      intro z hz
      rcases mem_btreeInsert cmp hz with h | h
      · rw [h, hsw x y, hc]
        rfl
      · exact hy z h

theorem btreeInsert_append (hsw : ∀ a b, cmp b a = (cmp a b).swap) (x : α) :
    ∀ {l : List α}, (∀ y ∈ l, cmp y x = .lt) → btreeInsert cmp x l = l ++ [x]
  | [], _ => rfl
  | y :: ys, h => by
    have hy : cmp y x = .lt := h y (List.mem_cons_self y ys)
    have hx : cmp x y = .gt := by
      rw [hsw x y] at hy
      cases hc : cmp x y <;> rw [hc] at hy
      all_goals first | rfl | exact absurd hy (by decide)
    unfold btreeInsert
    rw [hx]
    rw [btreeInsert_append hsw x (fun z hz => h z (List.mem_cons_of_mem y hz))]
    rfl

theorem btreeInsert_exists_eq (hrefl : ∀ a, cmp a a = .eq) (x : α) :
    ∀ (l : List α), ∃ y ∈ btreeInsert cmp x l, cmp x y = .eq
  | [] => ⟨x, by simp [btreeInsert], hrefl x⟩
  | y :: ys => by
    unfold btreeInsert
    cases hc : cmp x y
    case lt => exact ⟨x, by simp, hrefl x⟩
    case eq => exact ⟨y, by simp, hc⟩
    case gt =>
      rcases btreeInsert_exists_eq hrefl x ys with ⟨z, hz, hcz⟩
      exact ⟨z, by simp [hz], hcz⟩

theorem btreeInsert_of_mem_eq (hsw : ∀ a b, cmp b a = (cmp a b).swap)
    (hcg : ∀ a b, cmp a b = .eq → ∀ c, cmp a c = cmp b c) (x : α) :
    ∀ {l : List α}, l.Pairwise (fun a b => cmp a b = .lt) →
      ∀ {y}, y ∈ l → cmp x y = .eq → btreeInsert cmp x l = l
  | [], _, y, hy, _ => absurd hy (List.not_mem_nil y)
  | z :: zs, hp, y, hy, hxy => by
    rcases List.pairwise_cons.mp hp with ⟨hz, hzs⟩
    unfold btreeInsert
    rcases List.mem_cons.mp hy with h | h
    · subst h
      rw [hxy]
    · have hzy : cmp z y = .lt := hz y h
      have hxz : cmp x z = .gt := by
        rw [hcg x y hxy z, hsw z y, hzy]
        rfl
      rw [hxz, btreeInsert_of_mem_eq hsw hcg x hzs h hxy]

theorem foldl_btreeInsert_ne_nil :
    ∀ (L acc : List α), acc ≠ [] →
      L.foldl (fun acc m => btreeInsert cmp m acc) acc ≠ []
  | [], acc, h => h
  | m :: L, acc, _ => by
    simp only [List.foldl_cons]
    exact foldl_btreeInsert_ne_nil L _ (btreeInsert_ne_nil cmp m acc)

theorem foldl_btreeInsert_nil_iff (L : List α) :
    L.foldl (fun acc m => btreeInsert cmp m acc) [] = [] ↔ L = [] := by
  cases L with
  | nil => simp
  | cons m L =>
    simp only [List.foldl_cons]
    constructor
    · intro h
      exact absurd h (foldl_btreeInsert_ne_nil cmp L _ (btreeInsert_ne_nil cmp m []))
    · intro h
      exact List.noConfusion h

theorem foldl_btreeInsert_sorted (hsw : ∀ a b, cmp b a = (cmp a b).swap)
    (htr : ∀ a b c, cmp a b = .lt → cmp b c = .lt → cmp a c = .lt) :
    ∀ (L acc : List α), acc.Pairwise (fun a b => cmp a b = .lt) →
      L.Pairwise (fun a b => cmp a b = .lt) →
      (∀ a ∈ acc, ∀ m ∈ L, cmp a m = .lt) →
      L.foldl (fun acc m => btreeInsert cmp m acc) acc = acc ++ L
  | [], acc, _, _, _ => by simp
  | m :: L, acc, hacc, hL, hcross => by
    rcases List.pairwise_cons.mp hL with ⟨hm, hL'⟩
    have hins : btreeInsert cmp m acc = acc ++ [m] :=
      btreeInsert_append cmp hsw m
        (fun y hy => hcross y hy m (List.mem_cons_self m L))
    have hacc' : (acc ++ [m]).Pairwise (fun a b => cmp a b = .lt) := by
      rw [List.pairwise_append]
      refine ⟨hacc, List.pairwise_singleton _ m, ?_⟩
      intro a ha b hb
      rcases List.mem_singleton.mp hb with rfl
      exact hcross a ha b (List.mem_cons_self b L)
    have hcross' : ∀ a ∈ acc ++ [m], ∀ x ∈ L, cmp a x = .lt := by
      intro a ha x hx
      rcases List.mem_append.mp ha with h | h
      · exact hcross a h x (List.mem_cons_of_mem m hx)
      · rcases List.mem_singleton.mp h with rfl
        exact hm x hx
    simp only [List.foldl_cons]
    rw [hins, foldl_btreeInsert_sorted hsw htr L (acc ++ [m]) hacc' hL' hcross']
    simp

end BTreeLemmas

/-! ## Router invariant and query characterizations -/

theorem router_empty_wf {T : Type} : (Router.empty : Router T).WF :=
  List.Pairwise.nil

/-- `Router::add` preserves the sorted-set invariant. -/
theorem router_add_wf {T : Type} (r : Router T) (p : String) (h : T) (hwf : r.WF) :
    ((r.add p h).2).WF := by
  unfold Router.add
  cases hp : RouteSpec.parse p
  · exact hwf
  · exact btreeInsert_pairwise routeCmp routeCmp_swap
      (fun _ _ _ => routeCmp_lt_trans) _ hwf

/-- A successful `is_match` binds exactly the tested route. -/
theorem is_match_route {T : Type} {rt : Route T} {p : String} {m : Match T}
    (h : rt.is_match p = some m) : m.route = rt := by
  unfold Route.is_match at h
  rcases Option.map_eq_some'.mp h with ⟨caps, _, hm⟩
  rw [← hm]

/-- `findSome?` returns the head of the `filterMap`. -/
theorem findSome?_eq_head?_filterMap (f : α → Option β) :
    ∀ l : List α, l.findSome? f = (l.filterMap f).head?
  | [] => rfl
  | a :: l => by
    rw [List.findSome?_cons]
    cases h : f a
    · simp only [h, List.filterMap_cons_none h]
      exact findSome?_eq_head?_filterMap f l
    · simp [h, List.filterMap_cons_some h]

/-- `Router::best_match` is the last success of the in-order scan: the
reversed scan with early return picks out the final element of the
order-preserving `filterMap`. -/
theorem best_match_eq_getLast? {T : Type} (r : Router T) (p : String) :
    r.best_match p = (r.routes.filterMap (fun rt => rt.is_match p)).getLast? := by
  unfold Router.best_match
  rw [findSome?_eq_head?_filterMap]
  rw [List.filterMap_reverse]
  exact List.head?_reverse _

/-- Transfer `Pairwise` along `filterMap`. -/
theorem pairwise_filterMap_of_pairwise {α β : Type} {R : α → α → Prop} {S : β → β → Prop}
    (f : α → Option β) :
    ∀ l : List α,
      (∀ a b x y, a ∈ l → b ∈ l → R a b → f a = some x → f b = some y → S x y) →
      l.Pairwise R → (l.filterMap f).Pairwise S
  | [], _, _ => by simp
  | a :: l, hf, hp => by
    rcases List.pairwise_cons.mp hp with ⟨ha, hl⟩
    have ih := pairwise_filterMap_of_pairwise f l
      (fun a' b' x y ha' hb' => hf a' b' x y (List.mem_cons_of_mem a ha')
        (List.mem_cons_of_mem a hb')) hl
    cases hfa : f a
    · rw [List.filterMap_cons_none hfa]
      exact ih
    · rw [List.filterMap_cons_some hfa]
      refine List.pairwise_cons.mpr ⟨?_, ih⟩
      intro y hy
      rcases List.mem_filterMap.mp hy with ⟨b, hb, hfb⟩
      exact hf a b _ y (List.mem_cons_self a l) (List.mem_cons_of_mem a hb) (ha b hb) hfa hfb

/-- The matching routes of a query, in router order. -/
def matchList {T : Type} (r : Router T) (p : String) : List (Match T) :=
  r.routes.filterMap (fun rt => rt.is_match p)

theorem matches_toList_eq_foldl {T : Type} (r : Router T) (p : String) :
    (r.matches p).toList =
      (matchList r p).foldl (fun acc m => btreeInsert matchCmp m acc) [] := rfl

/-- `Router::matches` is empty exactly when no route matches. -/
theorem matches_nil_iff {T : Type} (r : Router T) (p : String) :
    (r.matches p).toList = [] ↔ matchList r p = [] := by
  rw [matches_toList_eq_foldl]
  exact foldl_btreeInsert_nil_iff matchCmp (matchList r p)

/-! ## Capture extraction: alignment of positional captures -/

/-- Whether a segment is a named parameter. -/
def isParam : Segment → Bool
  | .Param _ => true
  | _ => false

/-- The parameter names of a segment sequence, in pattern order. -/
def paramNames (segs : List Segment) : List String :=
  segs.filterMap (fun s => match s with | .Param n => some n | _ => none)

/-- Whether no `Param` segment occurs after a `Wildcard` segment (the
wildcard consumes the whole remaining path and terminates the matching
walk, so any later parameter can never receive a positional capture). -/
def noParamAfterWildcard : List Segment → Bool
  | [] => true
  | .Wildcard :: rest => rest.all (fun s => !(isParam s))
  | .Slash :: rest => noParamAfterWildcard rest
  | .Dot :: rest => noParamAfterWildcard rest
  | .Param _ :: rest => noParamAfterWildcard rest
  | .Exact _ :: rest => noParamAfterWildcard rest

theorem paramNames_cons_param (n : String) (l : List Segment) :
    paramNames (.Param n :: l) = n :: paramNames l := rfl

theorem paramNames_cons_other {s : Segment} (hs : isParam s = false) (l : List Segment) :
    paramNames (s :: l) = paramNames l := by
  cases s <;> first | rfl | exact absurd hs (by simp [isParam])

theorem paramNames_append (l₁ l₂ : List Segment) :
    paramNames (l₁ ++ l₂) = paramNames l₁ ++ paramNames l₂ :=
  List.filterMap_append _ _ _

theorem paramNames_nil_of_no_param {l : List Segment} (h : ∀ s ∈ l, isParam s = false) :
    paramNames l = [] := by
  induction l with
  | nil => rfl
  | cons s l ih =>
    rw [paramNames_cons_other (h s (List.mem_cons_self s l))]
    exact ih (fun s hs => h s (List.mem_cons_of_mem _ hs))

theorem paramNames_length_of_all_param {l : List Segment}
    (h : ∀ s ∈ l, isParam s = true) : (paramNames l).length = l.length := by
  induction l with
  | nil => rfl
  | cons s l ih =>
    cases s with
    | Param n =>
      rw [paramNames_cons_param]
      simp only [List.length_cons]
      rw [ih (fun s hs => h s (List.mem_cons_of_mem _ hs))]
    | Slash => exact absurd (h _ (List.mem_cons_self _ l)) (by simp [isParam])
    | Dot => exact absurd (h _ (List.mem_cons_self _ l)) (by simp [isParam])
    | Wildcard => exact absurd (h _ (List.mem_cons_self _ l)) (by simp [isParam])
    | Exact t => exact absurd (h _ (List.mem_cons_self _ l)) (by simp [isParam])

/-- Without a wildcard present, the capturable segments are exactly the
parameters. -/
theorem filter_pw_eq_filter_param {l : List Segment} (h : Segment.Wildcard ∉ l) :
    l.filter isParamOrWildcard = l.filter isParam := by
  induction l with
  | nil => rfl
  | cons s l ih =>
    have hs : s ≠ Segment.Wildcard := fun hw => h (hw ▸ List.mem_cons_self s l)
    have hl : Segment.Wildcard ∉ l := fun hw => h (List.mem_cons_of_mem s hw)
    cases s with
    | Slash => exact ih hl
    | Dot => exact ih hl
    | Exact t => exact ih hl
    | Wildcard => exact absurd rfl hs
    | Param n =>
      show Segment.Param n :: l.filter isParamOrWildcard =
        Segment.Param n :: l.filter isParam
      rw [ih hl]

theorem paramNames_filter_pw (l : List Segment) :
    paramNames (l.filter isParamOrWildcard) = paramNames l := by
  induction l with
  | nil => rfl
  | cons s l ih =>
    cases s with
    | Slash => rw [show (Segment.Slash :: l).filter isParamOrWildcard =
        l.filter isParamOrWildcard from rfl, ih,
        paramNames_cons_other (show isParam Segment.Slash = false from rfl) l]
    | Dot => rw [show (Segment.Dot :: l).filter isParamOrWildcard =
        l.filter isParamOrWildcard from rfl, ih,
        paramNames_cons_other (show isParam Segment.Dot = false from rfl) l]
    | Exact t => rw [show (Segment.Exact t :: l).filter isParamOrWildcard =
        l.filter isParamOrWildcard from rfl, ih,
        paramNames_cons_other (show isParam (Segment.Exact t) = false from rfl) l]
    | Wildcard =>
      rw [show (Segment.Wildcard :: l).filter isParamOrWildcard =
        Segment.Wildcard :: l.filter isParamOrWildcard from rfl,
        paramNames_cons_other (show isParam Segment.Wildcard = false from rfl),
        ih, paramNames_cons_other (show isParam Segment.Wildcard = false from rfl) l]
    | Param n =>
      rw [show (Segment.Param n :: l).filter isParamOrWildcard =
        Segment.Param n :: l.filter isParamOrWildcard from rfl,
        paramNames_cons_param, ih, paramNames_cons_param]

theorem length_filter_param_eq (l : List Segment) :
    (l.filter isParam).length = (paramNames l).length := by
  induction l with
  | nil => rfl
  | cons s l ih =>
    cases s <;>
      simp [List.filter_cons, isParam, paramNames_cons_param, paramNames_cons_other, ih]

theorem all_param_of_mem_filter_pw {l : List Segment} (hw : Segment.Wildcard ∉ l) :
    ∀ s ∈ l.filter isParamOrWildcard, isParam s = true := by
  intro s hs
  rcases List.mem_filter.mp hs with ⟨hmem, hpw⟩
  cases s with
  | Param n => rfl
  | Wildcard => exact absurd hmem hw
  | Slash => exact absurd hpw (by simp [isParamOrWildcard])
  | Dot => exact absurd hpw (by simp [isParamOrWildcard])
  | Exact t => exact absurd hpw (by simp [isParamOrWildcard])

/-- Folding `captureStep` over a zipped run of parameter segments appends
exactly the named pairs and leaves the wildcard value untouched. -/
theorem foldl_captureStep_params :
    ∀ (A : List Segment) (vals : List String) (c : Captures),
      (∀ s ∈ A, isParam s = true) → A.length = vals.length →
      ((A.zip vals).foldl captureStep c).params = c.params ++ (paramNames A).zip vals ∧
      ((A.zip vals).foldl captureStep c).wildcard = c.wildcard
  | [], [], c, _, _ => by simp [paramNames]
  | [], v :: vals, c, _, h => by simp at h
  | s :: A, [], c, _, h => by simp at h
  | s :: A, v :: vals, c, hall, h => by
    cases s with
    | Param n =>
      have ih := foldl_captureStep_params A vals
        { c with params := c.params ++ [(n, v)] }
        (fun s hs => hall s (List.mem_cons_of_mem _ hs)) (by simpa using h)
      simp only [List.zip_cons_cons, List.foldl_cons]
      rw [paramNames_cons_param]
      constructor
      · rw [show captureStep c (Segment.Param n, v) =
          { c with params := c.params ++ [(n, v)] } from rfl]
        rw [ih.1]
        simp
      · rw [show captureStep c (Segment.Param n, v) =
          { c with params := c.params ++ [(n, v)] } from rfl]
        exact ih.2
    | Slash => exact absurd (hall _ (List.mem_cons_self _ A)) (by simp [isParam])
    | Dot => exact absurd (hall _ (List.mem_cons_self _ A)) (by simp [isParam])
    | Wildcard => exact absurd (hall _ (List.mem_cons_self _ A)) (by simp [isParam])
    | Exact t => exact absurd (hall _ (List.mem_cons_self _ A)) (by simp [isParam])

theorem zip_map_fst_of_length_eq :
    ∀ {l₁ : List α} {l₂ : List β}, l₁.length = l₂.length →
      (l₁.zip l₂).map Prod.fst = l₁
  | [], [], _ => rfl
  | [], _ :: _, h => by simp at h
  | _ :: _, [], h => by simp at h
  | a :: l₁, b :: l₂, h => by
    simp only [List.zip_cons_cons, List.map_cons]
    rw [zip_map_fst_of_length_eq (by simpa using h)]

/-- After the first wildcard of a pattern that satisfies
`noParamAfterWildcard`, no parameter segments occur. -/
theorem npaw_post {pre post : List Segment}
    (hn : noParamAfterWildcard (pre ++ .Wildcard :: post) = true)
    (hw : Segment.Wildcard ∉ pre) : ∀ s ∈ post, isParam s = false := by
  induction pre with
  | nil =>
    simp only [List.nil_append, noParamAfterWildcard, List.all_eq_true] at hn
    intro s hs
    simpa using hn s hs
  | cons x pre ih =>
    have hx : x ≠ Segment.Wildcard := fun h => hw (h ▸ List.mem_cons_self x pre)
    have hw' : Segment.Wildcard ∉ pre := fun h => hw (List.mem_cons_of_mem x h)
    cases x <;> first
      | exact absurd rfl hx
      | exact ih (by simpa [noParamAfterWildcard] using hn) hw'

theorem wildcard_not_mem_cons {s : Segment} {l : List Segment}
    (hs : s ≠ Segment.Wildcard) (hl : Segment.Wildcard ∉ l) :
    Segment.Wildcard ∉ s :: l := by
  intro hmem
  rcases List.mem_cons.mp hmem with h | h
  · exact hs h.symm
  · exact hl h

/-- Shape of the positional captures produced by a successful match walk:
either the route has no wildcard and there is exactly one capture per
`Param` segment, or the walk ended at the first wildcard and the captures
are one value per `Param` segment before it, followed by the single
wildcard capture. -/
theorem matchSegments_shape :
    ∀ (segs : List Segment) (cs : List Char) (caps : List String),
      matchSegments segs cs = some caps →
      (Segment.Wildcard ∉ segs ∧ caps.length = (segs.filter isParam).length) ∨
      (∃ pre post w vals, segs = pre ++ .Wildcard :: post ∧ Segment.Wildcard ∉ pre ∧
        caps = vals ++ [w] ∧ vals.length = (pre.filter isParam).length)
  | [], cs, caps, h => by
    simp only [matchSegments] at h
    split_ifs at h
    · left
      injection h with h'
      subst h'
      exact ⟨List.not_mem_nil _, rfl⟩
  | .Wildcard :: rest, cs, caps, h => by
    right
    simp only [matchSegments] at h
    injection h with h'
    refine ⟨[], rest, String.mk cs, [], by simp, List.not_mem_nil _, ?_, rfl⟩
    rw [← h']
    rfl
  | .Slash :: rest, cs, caps, h => by
    simp only [matchSegments] at h
    split at h
    · rcases matchSegments_shape rest _ caps h with ⟨hw, hlen⟩ |
        ⟨pre, post, w, vals, hseg, hwp, hcaps, hlen⟩
      · left
        exact ⟨wildcard_not_mem_cons (by simp) hw, by rw [hlen]; rfl⟩
      · right
        exact ⟨.Slash :: pre, post, w, vals, by rw [hseg]; rfl,
          wildcard_not_mem_cons (by simp) hwp, hcaps, by rw [hlen]; rfl⟩
    · exact absurd h (by simp)
  | .Dot :: rest, cs, caps, h => by
    simp only [matchSegments] at h
    split at h
    · rcases matchSegments_shape rest _ caps h with ⟨hw, hlen⟩ |
        ⟨pre, post, w, vals, hseg, hwp, hcaps, hlen⟩
      · left
        exact ⟨wildcard_not_mem_cons (by simp) hw, by rw [hlen]; rfl⟩
      · right
        exact ⟨.Dot :: pre, post, w, vals, by rw [hseg]; rfl,
          wildcard_not_mem_cons (by simp) hwp, hcaps, by rw [hlen]; rfl⟩
    · exact absurd h (by simp)
  | .Exact t :: rest, cs, caps, h => by
    simp only [matchSegments] at h
    split_ifs at h
    · rcases matchSegments_shape rest _ caps h with ⟨hw, hlen⟩ |
        ⟨pre, post, w, vals, hseg, hwp, hcaps, hlen⟩
      · left
        exact ⟨wildcard_not_mem_cons (by simp) hw, by rw [hlen]; rfl⟩
      · right
        exact ⟨.Exact t :: pre, post, w, vals, by rw [hseg]; rfl,
          wildcard_not_mem_cons (by simp) hwp, hcaps, by rw [hlen]; rfl⟩
  | .Param n :: rest, cs, caps, h => by
    simp only [matchSegments] at h
    split_ifs at h
    rcases Option.map_eq_some'.mp h with ⟨caps', hms, hcons⟩
    subst hcons
    rcases matchSegments_shape rest _ caps' hms with ⟨hw, hlen⟩ |
      ⟨pre, post, w, vals, hseg, hwp, hcaps, hlen⟩
    · left
      refine ⟨wildcard_not_mem_cons (by simp) hw, ?_⟩
      simp only [List.length_cons]
      rw [hlen]
      rfl
    · right
      refine ⟨.Param n :: pre, post, w, _ :: vals, by rw [hseg]; rfl,
        wildcard_not_mem_cons (by simp) hwp, by rw [hcaps]; rfl, ?_⟩
      simp only [List.length_cons]
      rw [hlen]
      rfl

/-- The capture-extraction contract, on the raw data of a successful walk:
the extracted pairs carry exactly the parameter names in pattern order,
and the wildcard value is set exactly when the pattern has a wildcard —
provided no parameter follows a wildcard. -/
theorem captures_fold_spec (segs : List Segment) (cs : List Char) (caps : List String)
    (hms : matchSegments segs cs = some caps)
    (hnp : noParamAfterWildcard segs = true) :
    (((segs.filter isParamOrWildcard).zip caps).foldl captureStep default).params.map
        Prod.fst = paramNames segs ∧
    ((((segs.filter isParamOrWildcard).zip caps).foldl captureStep
        default).wildcard.isSome ↔ Segment.Wildcard ∈ segs) := by
  rcases matchSegments_shape segs cs caps hms with ⟨hw, hlen⟩ |
    ⟨pre, post, w, vals, hseg, hwp, hcaps, hlen⟩
  · -- no wildcard: one capture per parameter
    have hfp := filter_pw_eq_filter_param hw
    have hall := all_param_of_mem_filter_pw hw
    have hlen' : (segs.filter isParamOrWildcard).length = caps.length := by
      rw [hfp, ← hlen]
    have hfold := foldl_captureStep_params (segs.filter isParamOrWildcard) caps
      default hall hlen'
    constructor
    · rw [hfold.1]
      have hnl : (paramNames (segs.filter isParamOrWildcard)).length = caps.length := by
        rw [paramNames_length_of_all_param hall, hlen']
      rw [show (default : Captures).params = [] from rfl, List.nil_append]
      rw [zip_map_fst_of_length_eq hnl, paramNames_filter_pw]
    · rw [hfold.2]
      rw [show (default : Captures).wildcard = none from rfl]
      simp [hw]
  · -- the walk ended at the first wildcard
    subst hseg
    subst hcaps
    have hP : pre.filter isParamOrWildcard = pre.filter isParam :=
      filter_pw_eq_filter_param hwp
    have hPlen : (pre.filter isParamOrWildcard).length = vals.length := by
      rw [hP, ← hlen]
    have hsplit : (pre ++ Segment.Wildcard :: post).filter isParamOrWildcard =
        pre.filter isParamOrWildcard ++
          Segment.Wildcard :: post.filter isParamOrWildcard := by
      rw [List.filter_append]
      rfl
    have hzip : ((pre ++ Segment.Wildcard :: post).filter isParamOrWildcard).zip
        (vals ++ [w]) =
        (pre.filter isParamOrWildcard).zip vals ++ [(Segment.Wildcard, w)] := by
      rw [hsplit, List.zip_append hPlen]
      simp
    have hall := all_param_of_mem_filter_pw hwp
    have hfold := foldl_captureStep_params (pre.filter isParamOrWildcard) vals
      default hall hPlen
    have hstep : ∀ c : Captures, captureStep c (Segment.Wildcard, w) =
        { c with wildcard := some w } := fun c => rfl
    constructor
    · rw [hzip, List.foldl_append]
      simp only [List.foldl_cons, List.foldl_nil]
      rw [hstep]
      simp only []
      rw [show ({ (((pre.filter isParamOrWildcard).zip vals).foldl captureStep default)
          with wildcard := some w } : Captures).params =
        (((pre.filter isParamOrWildcard).zip vals).foldl captureStep default).params
        from rfl]
      rw [hfold.1, show (default : Captures).params = [] from rfl, List.nil_append]
      have hnl : (paramNames (pre.filter isParamOrWildcard)).length = vals.length := by
        rw [paramNames_length_of_all_param hall, hPlen]
      rw [zip_map_fst_of_length_eq hnl, paramNames_filter_pw]
      rw [paramNames_append]
      rw [paramNames_cons_other (show isParam Segment.Wildcard = false from rfl)]
      rw [paramNames_nil_of_no_param (npaw_post hnp hwp), List.append_nil]
    · rw [hzip, List.foldl_append]
      simp only [List.foldl_cons, List.foldl_nil]
      rw [hstep]
      simp only [Option.isSome_some, true_iff]
      exact List.mem_append.mpr (Or.inr (List.mem_cons_self _ _))

/-! ## Duplicate registration and parse-failure propagation -/

/-- Adding a pattern whose spec is already present leaves the router
unchanged: `BTreeSet::insert` keeps the existing element when the new one
compares `Equal`. -/
theorem add_existing_spec_noop {T : Type} (r : Router T) (p : String) (h : T)
    (s : RouteSpec) (hwf : r.WF) (hp : RouteSpec.parse p = .ok s)
    (hex : ∃ y ∈ r.routes, y.spec = s) : (r.add p h).2 = r := by
  unfold Router.add
  rw [hp]
  rcases hex with ⟨y, hy, hys⟩
  have heq : routeCmp (⟨s, h⟩ : Route T) y = .eq :=
    (routeCmp_eq_iff _ _).mpr (by rw [hys])
  have hins : btreeInsert routeCmp (⟨s, h⟩ : Route T) r.routes = r.routes :=
    btreeInsert_of_mem_eq routeCmp routeCmp_swap
      (fun a b hab c => routeCmp_congr_left hab c) _ hwf hy heq
  simp only [hins]

/-- After a successful `add`, some stored route carries the parsed spec. -/
theorem add_mem_spec {T : Type} (r : Router T) (p : String) (h : T) (s : RouteSpec)
    (hp : RouteSpec.parse p = .ok s) :
    ∃ y ∈ ((r.add p h).2).routes, y.spec = s := by
  unfold Router.add
  rw [hp]
  rcases btreeInsert_exists_eq routeCmp (fun a => (routeCmp_eq_iff a a).mpr rfl)
    (⟨s, h⟩ : Route T) r.routes with ⟨y, hy, hyeq⟩
  exact ⟨y, hy, ((routeCmp_eq_iff _ _).mp hyeq).symm⟩

/-- In a strictly sorted route list, exactly one entry carries a spec that
is present at all. -/
theorem filter_spec_length_one {T : Type} (s : RouteSpec) :
    ∀ {l : List (Route T)}, l.Pairwise (fun a b => routeCmp a b = .lt) →
      ∀ {y : Route T}, y ∈ l → y.spec = s →
      (l.filter (fun rt => rt.spec == s)).length = 1
  | [], _, y, hy, _ => absurd hy (List.not_mem_nil y)
  | a :: t, hp, y, hy, hys => by
    rcases List.pairwise_cons.mp hp with ⟨ha, ht⟩
    by_cases has : a.spec = s
    · have hnone : ∀ z ∈ t, ¬(z.spec == s) = true := by
        intro z hz hzs
        have hzs' : z.spec = s := by simpa using hzs
        have : routeCmp a z = .eq := (routeCmp_eq_iff a z).mpr (by rw [has, hzs'])
        rw [ha z hz] at this
        exact Ordering.noConfusion this
      rw [List.filter_cons_of_pos (by simpa using has)]
      rw [List.filter_eq_nil_iff.mpr hnone]
      rfl
    · have hyt : y ∈ t := by
        rcases List.mem_cons.mp hy with rfl | hmem
        · exact absurd hys has
        · exact hmem
      rw [List.filter_cons_of_neg (by simpa using has)]
      exact filter_spec_length_one s ht hyt hys

/-- A component that fails to parse makes the whole component list fail. -/
theorem parseComponents_error_of_mem :
    ∀ {l : List (List Char)} {c : List Char}, c ∈ l →
      (∃ e₀, parseComponent c = .error e₀) →
      ∃ e, parseComponents l = .error e
  | [], c, h, _ => absurd h (List.not_mem_nil c)
  | d :: l, c, h, hc => by
    unfold parseComponents
    cases hd : parseComponent d
    · exact ⟨_, rfl⟩
    · rcases List.mem_cons.mp h with rfl | hmem
      · rcases hc with ⟨e₀, he₀⟩
        exact Except.noConfusion (hd.symm.trans he₀)
      · rcases parseComponents_error_of_mem hmem hc with ⟨e, he⟩
        rw [he]
        exact ⟨e, rfl⟩

/-! ## Concrete routers and matches used to exercise the claims -/

/-- The router of the `Router::matches` doc-test in `src/router.rs`:
exactly the patterns `*`, `/:param` and `/hello` registered. -/
def demoRouter : Router Nat :=
  (((Router.empty.add "*" 0).2.add "/:param" 1).2.add "/hello" 2).2

/-- A router holding the patterns `/` and `*`: the spec of `/` is a
segment-prefix of the spec of `*`, and both match the path `/`. -/
def cexRouter : Router Nat :=
  ((Router.empty.add "/" 0).2.add "*" 1).2

/-- The match of pattern `/a` against path `/a`. -/
def cexMatchA : Match Nat := ⟨"/a", ⟨⟨[.Exact "a"]⟩, 0⟩, []⟩

/-- The match of pattern `/a/*` against path `/a/b`; its route's segment
list extends `cexMatchA`'s. -/
def cexMatchB : Match Nat := ⟨"/a/b", ⟨⟨[.Exact "a", .Slash, .Wildcard]⟩, 0⟩, ["b"]⟩

deriving instance DecidableEq for Except

instance {T : Type} [DecidableEq T] (r : Router T) : Decidable r.WF := by
  unfold Router.WF
  infer_instance

/-! ## Claim theorems -/

/-- C3: for a router in which exactly the patterns `*`, `/:param` and
`/hello` are registered, `matches("/")` is non-empty and contains only the
`*` route, `matches("/hello")` has length 3, `matches("/hey")` has length
2 (the `*` and `/:param` routes), and `matches("/hey/there")` has length 1
(the `*` route). -/
theorem demo_router_match_counts :
    RouteSpec.parse "*" = .ok ⟨[.Wildcard]⟩ ∧
    RouteSpec.parse "/:param" = .ok ⟨[.Param "param"]⟩ ∧
    RouteSpec.parse "/hello" = .ok ⟨[.Exact "hello"]⟩ ∧
    0 < (demoRouter.matches "/").len ∧
    (demoRouter.matches "/").toList.map (fun m => m.route.spec) = [⟨[.Wildcard]⟩] ∧
    (demoRouter.matches "/hello").len = 3 ∧
    (demoRouter.matches "/hey").len = 2 ∧
    (demoRouter.matches "/hey").toList.map (fun m => m.route.spec) =
      [⟨[.Wildcard]⟩, ⟨[.Param "param"]⟩] ∧
    (demoRouter.matches "/hey/there").len = 1 ∧
    (demoRouter.matches "/hey/there").toList.map (fun m => m.route.spec) =
      [⟨[.Wildcard]⟩] := by
  decide

/-- C4: for every router and every pattern that fails to parse (named
wildcard, empty parameter name), `add` returns the typed parse error and
leaves the route collection exactly as it was — the insertion is never
reached, so registration is atomic per call. -/
theorem add_invalid_pattern_error_atomic {T : Type} (r : Router T) (p : String) (h : T)
    (e : RouteParseError) (hp : RouteSpec.parse p = .error e) :
    r.add p h = (.error e, r) := by
  unfold Router.add
  rw [hp]

/-- Witness for C4 at the two invalid patterns of §7. -/
theorem add_invalid_pattern_error_atomic_witness :
    demoRouter.add "*tail" 7 = (.error .namedWildcard, demoRouter) ∧
    demoRouter.add "/x/:" 8 = (.error .emptyParamName, demoRouter) :=
  ⟨add_invalid_pattern_error_atomic demoRouter "*tail" 7 .namedWildcard (by decide),
   add_invalid_pattern_error_atomic demoRouter "/x/:" 8 .emptyParamName (by decide)⟩

/-- C5: registering two patterns that parse to the same `RouteSpec`, each
with its own handler, stores exactly one route entry for that spec; the
second registration is a no-op (the set keeps the first handler), so the
later registration does not replace the earlier one. -/
theorem duplicate_spec_collapses {T : Type} (r : Router T) (p₁ p₂ : String) (h₁ h₂ : T)
    (s : RouteSpec) (hwf : r.WF) (hp₁ : RouteSpec.parse p₁ = .ok s)
    (hp₂ : RouteSpec.parse p₂ = .ok s) :
    ((r.add p₁ h₁).2.add p₂ h₂).2 = (r.add p₁ h₁).2 ∧
    ((((r.add p₁ h₁).2.add p₂ h₂).2.routes.filter (fun rt => rt.spec == s)).length = 1) := by
  have hwf₁ : ((r.add p₁ h₁).2).WF := router_add_wf r p₁ h₁ hwf
  have hex₁ := add_mem_spec r p₁ h₁ s hp₁
  have hnoop : ((r.add p₁ h₁).2.add p₂ h₂).2 = (r.add p₁ h₁).2 :=
    add_existing_spec_noop _ p₂ h₂ s hwf₁ hp₂ hex₁
  refine ⟨hnoop, ?_⟩
  rw [hnoop]
  rcases hex₁ with ⟨y, hy, hys⟩
  exact filter_spec_length_one s hwf₁ hy hys

/-- Witness for C5: `/a` and `a` both parse to the spec `[Exact "a"]`. -/
theorem duplicate_spec_collapses_witness :
    ((((Router.empty : Router Nat).add "/a" 0).2.add "a" 1).2 =
      ((Router.empty : Router Nat).add "/a" 0).2) ∧
    (((((Router.empty : Router Nat).add "/a" 0).2.add "a" 1).2.routes.filter
      (fun rt => rt.spec == ⟨[.Exact "a"]⟩)).length = 1) :=
  duplicate_spec_collapses Router.empty "/a" "a" 0 1 ⟨[.Exact "a"]⟩
    (by decide) (by decide) (by decide)

/-- C7: `add` rejects any pattern one of whose slash-separated components
is the wildcard sigil followed by extra text (a named wildcard), and
accepts the bare wildcard pattern `*`. -/
theorem add_named_wildcard_rejected {T : Type} (r : Router T) (h : T) :
    (∀ (p : String) (a : Char) (t : List Char),
      ('*' :: a :: t) ∈ splitSlash p.data → ∃ e, (r.add p h).1 = .error e) ∧
    (r.add "*" h).1 = .ok () := by
  constructor
  · intro p a t hmem
    have hcomp : parseComponent ('*' :: a :: t) = .error .namedWildcard := rfl
    have hmem' : ('*' :: a :: t) ∈ (splitSlash p.data).filter (fun c => !c.isEmpty) :=
      List.mem_filter.mpr ⟨hmem, by simp⟩
    rcases parseComponents_error_of_mem hmem' ⟨_, hcomp⟩ with ⟨e, he⟩
    refine ⟨e, ?_⟩
    unfold Router.add RouteSpec.parse
    rw [he]
  · rfl

/-- Witness for C7 at the doc-test patterns `*named_wildcard`-style
(`*tail`) and `*`. -/
theorem add_named_wildcard_rejected_witness :
    (∃ e, ((Router.empty : Router Nat).add "*tail" 0).1 = .error e) ∧
    ((Router.empty : Router Nat).add "*" 0).1 = .ok () :=
  ⟨(add_named_wildcard_rejected Router.empty 0).1 "*tail" 't' ['a', 'i', 'l'] (by decide),
   (add_named_wildcard_rejected Router.empty 0).2⟩

/-- C8: a pattern repeating a parameter name yields a `Captures` list
containing the name once per occurrence in pattern order, and looking the
name up returns the value of the rightmost occurrence (last write
visible); the final conjunct states the lookup rule in general. -/
theorem repeated_param_last_write_visible :
    RouteSpec.parse "/:x/:x" = .ok ⟨[.Param "x", .Slash, .Param "x"]⟩ ∧
    ((⟨⟨[.Param "x", .Slash, .Param "x"]⟩, (0 : Nat)⟩ : Route Nat).is_match "/a/b").map
      Match.captures = some ⟨[("x", "a"), ("x", "b")], none⟩ ∧
    Captures.get ⟨[("x", "a"), ("x", "b")], none⟩ "x" = some "b" ∧
    (∀ (ps : List (String × String)) (n v : String) (w : Option String),
      Captures.get ⟨ps ++ [(n, v)], w⟩ n = some v) := by
  refine ⟨by decide, by decide, by decide, ?_⟩
  intro ps n v w
  unfold Captures.get
  simp [List.filter_append, List.getLast?_concat]

/-- C9: capture extraction and matching are idempotent and deterministic.
In this pure functional embedding both `Match::captures` and
`Router::matches` are functions of their arguments alone (the Rust methods
take `&self` and perform no interior mutation), so two invocations on the
same arguments are definitionally the same value. -/
theorem matching_idempotent_deterministic {T : Type} (m : Match T) (r : Router T)
    (p : String) :
    m.captures = m.captures ∧ r.matches p = r.matches p :=
  ⟨rfl, rfl⟩

/-- C10: `Match` equality is determined solely by the routes — equal
routes give equal matches — and neither the queried path nor the captured
substrings influence `Match::eq` or `Match::cmp`. -/
theorem match_eq_route_only {T : Type} (m₁ m₂ : Match T) :
    (m₁.route = m₂.route → matchEq m₁ m₂) ∧
    (matchEq m₁ m₂ ↔ m₁.route.spec = m₂.route.spec) ∧
    (∀ (p q : String) (c d : List String),
      (matchEq ⟨p, m₁.route, c⟩ ⟨q, m₂.route, d⟩ ↔ matchEq m₁ m₂) ∧
      matchCmp ⟨p, m₁.route, c⟩ ⟨q, m₂.route, d⟩ = matchCmp m₁ m₂) := by
  refine ⟨fun h => ?_, ?_, fun p q c d => ⟨Iff.rfl, rfl⟩⟩
  · unfold matchEq
    rw [h]
  · unfold matchEq
    exact eq_comm

/-- Witness for C10: two matches of the same route against different paths
with different captures compare equal. -/
theorem match_eq_route_only_witness :
    matchEq (⟨"/a", ⟨⟨[.Exact "a"]⟩, 0⟩, []⟩ : Match Nat)
      ⟨"/b", ⟨⟨[.Exact "a"]⟩, 0⟩, ["z"]⟩ :=
  (match_eq_route_only (⟨"/a", ⟨⟨[.Exact "a"]⟩, 0⟩, []⟩ : Match Nat)
    ⟨"/b", ⟨⟨[.Exact "a"]⟩, 0⟩, ["z"]⟩).1 rfl

/-- The deduplicated `Matches` set keeps every matching route when no two
distinct matching routes have prefix-comparable segment sequences. -/
theorem matches_toList_sorted_eq {T : Type} (r : Router T) (p : String) (hwf : r.WF)
    (hnp : ∀ a ∈ r.routes, ∀ b ∈ r.routes, (a.is_match p).isSome →
      (b.is_match p).isSome → a.spec ≠ b.spec →
      zipCmp segCmp a.spec.segments b.spec.segments ≠ .eq) :
    (r.matches p).toList = matchList r p := by
  have hpair : (matchList r p).Pairwise (fun m₁ m₂ => matchCmp m₁ m₂ = .lt) := by
    apply pairwise_filterMap_of_pairwise (fun rt => rt.is_match p) r.routes ?_ hwf
    intro a b x y ha hb hR hfa hfb
    have hxa : x.route = a := is_match_route hfa
    have hyb : y.route = b := is_match_route hfb
    have hRc : routeCmp x.route y.route = .lt := by rw [hxa, hyb]; exact hR
    rcases matchCmp_of_routeCmp_lt hRc with h | h
    · exact h
    · exfalso
      have hne : a.spec ≠ b.spec := by
        intro hspec
        have : routeCmp a b = .eq := (routeCmp_eq_iff a b).mpr hspec
        rw [hR] at this
        exact Ordering.noConfusion this
      have hzz : matchCmp x y = zipCmp segCmp a.spec.segments b.spec.segments := by
        unfold matchCmp
        rw [hxa, hyb]
      have hfa' : a.is_match p = some x := hfa
      have hfb' : b.is_match p = some y := hfb
      refine hnp a ha b hb ?_ ?_ hne (by rw [← hzz]; exact h)
      · rw [hfa']; rfl
      · rw [hfb']; rfl
  rw [matches_toList_eq_foldl]
  exact (foldl_btreeInsert_sorted matchCmp matchCmp_swap
    (fun _ _ _ => matchCmp_lt_trans) (matchList r p) [] List.Pairwise.nil hpair
    (by intro a ha; exact absurd ha (List.not_mem_nil a))).trans (List.nil_append _)

/-- C1 (amended): `best_match(A)` is `Some` exactly when `matches(A)` is
non-empty; and provided the router is well-formed and no two distinct
matching routes have prefix-comparable segment sequences (so the zipping
`Match::cmp` does not conflate them in the `BTreeSet`), `best_match(A)` is
exactly the maximum element of `matches(A)` returned by `Matches::best`. -/
theorem best_match_agrees_with_matches_best {T : Type} (r : Router T) (p : String) :
    ((r.best_match p).isSome ↔ 0 < (r.matches p).len) ∧
    (r.WF →
      (∀ a ∈ r.routes, ∀ b ∈ r.routes, (a.is_match p).isSome →
        (b.is_match p).isSome → a.spec ≠ b.spec →
        zipCmp segCmp a.spec.segments b.spec.segments ≠ .eq) →
      r.best_match p = (r.matches p).best) := by
  constructor
  · rw [best_match_eq_getLast?]
    have h1 : 0 < (r.matches p).len ↔ (r.matches p).toList ≠ [] := by
      unfold Matches.len
      simp [List.length_pos]
    rw [h1, List.getLast?_isSome]
    exact (not_congr (matches_nil_iff r p)).symm
  · intro hwf hnp
    unfold Matches.best
    rw [best_match_eq_getLast?, matches_toList_sorted_eq r p hwf hnp]
    rfl

/-- Witness for C1 (amended) on the doc-test router and the path `/hey`. -/
theorem best_match_agrees_with_matches_best_witness :
    ((demoRouter.best_match "/hey").isSome ↔ 0 < (demoRouter.matches "/hey").len) ∧
    demoRouter.best_match "/hey" = (demoRouter.matches "/hey").best :=
  ⟨(best_match_agrees_with_matches_best demoRouter "/hey").1,
   (best_match_agrees_with_matches_best demoRouter "/hey").2 (by decide) (by decide)⟩

/-- Counterexample to C1 as stated: in the router holding `/` and `*`,
both routes match the path `/`; their specs are zip-prefix-comparable, so
the `BTreeSet` of matches collapses them (keeping the `/` match, inserted
first), while `best_match` short-circuits to the `*` route — the route of
`best_match("/")` differs from the route of `matches("/").best()`. -/
theorem best_match_prefix_counterexample :
    (cexRouter.best_match "/").map (fun m => m.route.spec) = some ⟨[.Wildcard]⟩ ∧
    ((cexRouter.matches "/").best).map (fun m => m.route.spec) = some ⟨[]⟩ ∧
    cexRouter.best_match "/" ≠ (cexRouter.matches "/").best := by
  decide

/-- C2 (amended): `Match::cmp` compares `Equal` exactly when one route's
segment sequence is a prefix of the other's; whenever that is not the
case, exactly one of the two matches compares greater, and the strict
comparison is transitive.  The comparison reads only the two segment
sequences, so repeated invocations agree by definition. -/
theorem match_cmp_strict_order_nonprefix_pairs {T : Type} (m₁ m₂ m₃ : Match T) :
    (matchCmp m₁ m₂ = .eq ↔
      (m₁.route.spec.segments.isPrefixOf m₂.route.spec.segments ∨
       m₂.route.spec.segments.isPrefixOf m₁.route.spec.segments)) ∧
    (matchCmp m₁ m₂ ≠ .eq →
      ((matchCmp m₁ m₂ = .gt ∧ ¬matchCmp m₂ m₁ = .gt) ∨
       (matchCmp m₂ m₁ = .gt ∧ ¬matchCmp m₁ m₂ = .gt))) ∧
    (matchCmp m₁ m₂ = .lt → matchCmp m₂ m₃ = .lt → matchCmp m₁ m₃ = .lt) := by
  refine ⟨matchCmp_eq_iff m₁ m₂, ?_, fun h₁ h₂ => matchCmp_lt_trans h₁ h₂⟩
  intro hne
  have hsw := matchCmp_swap m₁ m₂
  cases hc : matchCmp m₁ m₂
  · right
    constructor
    · rw [hsw, hc]
      rfl
    · decide
  · exact absurd hc hne
  · left
    constructor
    · rfl
    · rw [hsw, hc]
      decide

/-- Witness for C2 (amended), on matches of `/hello`, `/:param` and `*`
style routes. -/
theorem match_cmp_strict_order_witness :
    ((matchCmp (⟨"/hello", ⟨⟨[.Exact "hello"]⟩, 0⟩, []⟩ : Match Nat)
        ⟨"/hello", ⟨⟨[.Param "param"]⟩, 0⟩, ["hello"]⟩ = .gt ∧
      ¬matchCmp (⟨"/hello", ⟨⟨[.Param "param"]⟩, 0⟩, ["hello"]⟩ : Match Nat)
        ⟨"/hello", ⟨⟨[.Exact "hello"]⟩, 0⟩, []⟩ = .gt) ∨
     (matchCmp (⟨"/hello", ⟨⟨[.Param "param"]⟩, 0⟩, ["hello"]⟩ : Match Nat)
        ⟨"/hello", ⟨⟨[.Exact "hello"]⟩, 0⟩, []⟩ = .gt ∧
      ¬matchCmp (⟨"/hello", ⟨⟨[.Exact "hello"]⟩, 0⟩, []⟩ : Match Nat)
        ⟨"/hello", ⟨⟨[.Param "param"]⟩, 0⟩, ["hello"]⟩ = .gt)) ∧
    matchCmp (⟨"/hello", ⟨⟨[.Wildcard]⟩, 0⟩, ["hello"]⟩ : Match Nat)
      ⟨"/hello", ⟨⟨[.Exact "hello"]⟩, 0⟩, []⟩ = .lt :=
  ⟨(match_cmp_strict_order_nonprefix_pairs
      (⟨"/hello", ⟨⟨[.Exact "hello"]⟩, 0⟩, []⟩ : Match Nat)
      ⟨"/hello", ⟨⟨[.Param "param"]⟩, 0⟩, ["hello"]⟩
      ⟨"/hello", ⟨⟨[.Param "param"]⟩, 0⟩, ["hello"]⟩).2.1 (by decide),
   (match_cmp_strict_order_nonprefix_pairs
      (⟨"/hello", ⟨⟨[.Wildcard]⟩, 0⟩, ["hello"]⟩ : Match Nat)
      ⟨"/hello", ⟨⟨[.Param "param"]⟩, 0⟩, ["hello"]⟩
      ⟨"/hello", ⟨⟨[.Exact "hello"]⟩, 0⟩, []⟩).2.2 (by decide) (by decide)⟩

/-- Counterexample to C2 as stated: two matches produced by `is_match`
from the registered patterns `/a` and `/a/*` have distinct parsed specs,
yet `Match::cmp` returns `Equal` in both directions (one segment sequence
is a prefix of the other), so neither compares greater — the comparison is
not a strict total order over distinct registered patterns. -/
theorem match_cmp_prefix_counterexample :
    RouteSpec.parse "/a" = .ok cexMatchA.route.spec ∧
    RouteSpec.parse "/a/*" = .ok cexMatchB.route.spec ∧
    cexMatchA.route.is_match "/a" = some cexMatchA ∧
    cexMatchB.route.is_match "/a/b" = some cexMatchB ∧
    cexMatchA.route.spec ≠ cexMatchB.route.spec ∧
    matchCmp cexMatchA cexMatchB = .eq ∧
    matchCmp cexMatchB cexMatchA = .eq := by
  decide

/-- C6 (amended): for a successful match of a route in which no `Param`
segment follows a `Wildcard` segment, `captures()` produces exactly one
`(name, value)` pair per `Param` segment in pattern order and sets the
optional wildcard value exactly when the route has a `Wildcard` segment;
the concrete conjuncts check the two doc examples `/users/:id` on
`/users/42` and `/files/*` on `/files/a/b/c.txt`. -/
theorem captures_contract {T : Type} (rt : Route T) (p : String) (m : Match T)
    (hm : rt.is_match p = some m)
    (hnp : noParamAfterWildcard rt.spec.segments = true) :
    (m.captures.params.map Prod.fst = paramNames rt.spec.segments ∧
      (m.captures.wildcard.isSome ↔ Segment.Wildcard ∈ rt.spec.segments)) ∧
    ((Route.is_match ⟨⟨[.Exact "users", .Slash, .Param "id"]⟩, (0 : Nat)⟩
        "/users/42").map Match.captures = some ⟨[("id", "42")], none⟩ ∧
      RouteSpec.parse "/users/:id" = .ok ⟨[.Exact "users", .Slash, .Param "id"]⟩) ∧
    ((Route.is_match ⟨⟨[.Exact "files", .Slash, .Wildcard]⟩, (0 : Nat)⟩
        "/files/a/b/c.txt").map Match.captures = some ⟨[], some "a/b/c.txt"⟩ ∧
      RouteSpec.parse "/files/*" = .ok ⟨[.Exact "files", .Slash, .Wildcard]⟩) := by
  refine ⟨?_, ⟨by decide, by decide⟩, ⟨by decide, by decide⟩⟩
  unfold Route.is_match Route.is_match' at hm
  rcases Option.map_eq_some'.mp hm with ⟨caps, hms, hmk⟩
  subst hmk
  exact captures_fold_spec rt.spec.segments _ caps hms hnp

/-- Witness for C6 (amended) on the `/users/:id` route. -/
theorem captures_contract_witness :
    ((Route.is_match ⟨⟨[.Exact "users", .Slash, .Param "id"]⟩, (0 : Nat)⟩
        "/users/42").map
      (fun m => m.captures.params.map Prod.fst) = some ["id"]) ∧
    ((Route.is_match ⟨⟨[.Exact "users", .Slash, .Param "id"]⟩, (0 : Nat)⟩
        "/users/42").map
      (fun m => m.captures.wildcard.isSome) = some false) := by
  have h := captures_contract (⟨⟨[.Exact "users", .Slash, .Param "id"]⟩, (0 : Nat)⟩ : Route Nat)
    "/users/42"
    ⟨"/users/42", ⟨⟨[.Exact "users", .Slash, .Param "id"]⟩, 0⟩, ["42"]⟩
    (by decide) (by decide)
  constructor
  · rw [show (Route.is_match ⟨⟨[.Exact "users", .Slash, .Param "id"]⟩, (0 : Nat)⟩
      "/users/42") = some ⟨"/users/42", ⟨⟨[.Exact "users", .Slash, .Param "id"]⟩, 0⟩,
      ["42"]⟩ from by decide]
    rw [Option.map_some']
    rw [h.1.1]
    decide
  · rw [show (Route.is_match ⟨⟨[.Exact "users", .Slash, .Param "id"]⟩, (0 : Nat)⟩
      "/users/42") = some ⟨"/users/42", ⟨⟨[.Exact "users", .Slash, .Param "id"]⟩, 0⟩,
      ["42"]⟩ from by decide]
    rw [Option.map_some']
    have h2 := h.1.2
    simp only [show Segment.Wildcard ∈
      ([.Exact "users", .Slash, .Param "id"] : List Segment) ↔ False from by decide] at h2
    simp at h2
    simp [h2]

/-- Counterexample to C6 as stated: the pattern `*/:q` parses, the
wildcard consumes the whole remaining path and terminates the walk, so the
route matches `/x` successfully, yet `captures()` produces no pair at all
for the `Param` segment `q` — not one pair per `Param` segment. -/
theorem captures_param_after_wildcard_counterexample :
    RouteSpec.parse "*/:q" = .ok ⟨[.Wildcard, .Slash, .Param "q"]⟩ ∧
    ((⟨⟨[.Wildcard, .Slash, .Param "q"]⟩, (0 : Nat)⟩ : Route Nat).is_match "/x").map
      (fun m => m.captures.params.map Prod.fst) = some [] ∧
    paramNames [.Wildcard, .Slash, .Param "q"] = ["q"] := by
  decide
